import Mathlib

/-!
Verification of the mockingbird synthetic-metrics generator.

This file gives a shallow embedding, in Lean 4, of the parts of the
repository that the verified properties speak about:

* `src/series.py` — `SeriesPoint.label_key`
* `src/otel_exporter.py` — `OTELExporter.export_point` (push-model
  reconciler) and `OTELExporter._series_key`
* `src/prom_exporter.py` — `PrometheusExporter.export_point` (pull-model
  reconciler)
* `src/generators.py` — `CounterGenerator.tick` and the NaN policy of
  `HistogramGenerator.tick` / `SummaryGenerator.tick`
* `src/cardinality.py` — `generate_label_values`, `generate_label_space`,
  `apply_series_cap`
* `src/config.py` — the `Config` model validators
* `src/engine.py` — the spike-multiplier application in
  `GeneratorEngine.tick`

Python strings are modelled as `List Char`, Python floats as `ℚ`
(the properties under examination are exact arithmetic identities), a
possibly-NaN float as `Option ℚ` with `none` playing the role of NaN,
and Python dicts keyed by strings as association lists or total
functions with an explicit default.  External library functions
(numpy's RNG, `hashlib.md5`, Python string formatting) are taken as
function parameters: the code under verification only threads their
results around.
-/

namespace Mockingbird

/-- Python strings, modelled as lists of characters. -/
abbrev Str := List Char

/-- Python floats, modelled as exact rationals. -/
abbrev Val := ℚ

/-- A float that may be NaN: `none` models NaN, `some x` an ordinary value. -/
abbrev FVal := Option ℚ

/-! ### Label keys (series.py, generators.py, otel_exporter.py, cardinality.py)

Python's `sorted(labels.items())` sorts the `(name, value)` pairs
lexicographically: by name, then by value.  Since dict keys are unique
the value component never decides, but we embed the full tuple order. -/

/-- Lexicographic order on `(name, value)` pairs, as used by Python's
`sorted` on `dict.items()`. -/
def pairLe (a b : Str × Str) : Prop :=
  a.1 < b.1 ∨ (a.1 = b.1 ∧ a.2 ≤ b.2)

instance : DecidableRel pairLe := fun a b =>
  inferInstanceAs (Decidable (_ ∨ _))

instance : IsTotal (Str × Str) pairLe := by
  constructor
  intro a b
  rcases lt_trichotomy a.1 b.1 with h | h | h
  · exact Or.inl (Or.inl h)
  · rcases le_total a.2 b.2 with h2 | h2
    · exact Or.inl (Or.inr ⟨h, h2⟩)
    · exact Or.inr (Or.inr ⟨h.symm, h2⟩)
  · exact Or.inr (Or.inl h)

instance : IsTrans (Str × Str) pairLe := by
  constructor
  rintro a b c (hab | ⟨hab, hab2⟩) (hbc | ⟨hbc, hbc2⟩)
  · exact Or.inl (lt_trans hab hbc)
  · exact Or.inl (hbc ▸ hab)
  · exact Or.inl (hab ▸ hbc)
  · exact Or.inr ⟨hab.trans hbc, le_trans hab2 hbc2⟩

instance : IsAntisymm (Str × Str) pairLe := by
  constructor
  rintro ⟨a1, a2⟩ ⟨b1, b2⟩ (hab | ⟨hab, hab2⟩) (hba | ⟨hba, hba2⟩)
  · exact absurd (lt_trans hab hba) (lt_irrefl _)
  · exact absurd hab (hba ▸ lt_irrefl _)
  · exact absurd hba (hab ▸ lt_irrefl _)
  · simp only [Prod.mk.injEq]
    exact ⟨hab, le_antisymm hab2 hba2⟩

/-- Embedding of Python's `sorted(labels.items())`: a stable sort of the
label pairs under the tuple order. -/
def sortPairs (labels : List (Str × Str)) : List (Str × Str) :=
  List.insertionSort pairLe labels

/-- One `f"{k}={v}"` fragment. -/
def pairChunk (p : Str × Str) : Str := p.1 ++ '=' :: p.2

/-- Embedding of `",".join(chunks)`. -/
def joinChunks : List Str → Str
  | [] => []
  | [c] => c
  | c :: c' :: cs => c ++ ',' :: joinChunks (c' :: cs)

/-- The canonical sorted label string
`",".join(f"{k}={v}" for k, v in sorted(labels.items()))`, as built
identically by `SeriesPoint.label_key` (series.py 13-16),
`CounterGenerator._label_key` / `GaugeGenerator._label_key`
(generators.py 99-101, 168-170), the label part of
`OTELExporter._series_key` (otel_exporter.py 272-275) and `label_hash`
inside `apply_series_cap` (cardinality.py 100-102). -/
def sortedLabelStr (labels : List (Str × Str)) : Str :=
  joinChunks ((sortPairs labels).map pairChunk)

/-- Embedding of `OTELExporter._series_key` (otel_exporter.py 272-275):
`f"{metric_name}:{label_str}"`. -/
def seriesKey (metricName : Str) (labels : List (Str × Str)) : Str :=
  metricName ++ ':' :: sortedLabelStr labels

/-! ### Push-model reconciler (otel_exporter.py, `OTELExporter.export_point`)

Per-series state lives in `self.counter_state` / `self.gauge_cumulative`,
dicts with default `0.0` on first observation (`.get(series_key, 0.0)`).
A step takes the tracked value and the incoming point value and returns
the optionally emitted delta together with the new tracked value. -/

/-- Counter branch of `OTELExporter.export_point` (otel_exporter.py
216-236): `delta = point.value - prev`; if `delta > 0` add `delta` and
re-track, else if `delta < 0` (counter reset) add the entire incoming
value and re-track, else emit nothing. -/
def otelCounterStep (prev v : Val) : Option Val × Val :=
  let delta := v - prev
  if delta > 0 then (some delta, v)
  else if delta < 0 then (some v, v)
  else (none, prev)

/-- Feed one series' point values through the counter branch in order,
starting from tracked value `s`; returns the emitted deltas (in order)
and the final tracked value. -/
def otelCounterRun (s : Val) : List Val → List Val × Val
  | [] => ([], s)
  | v :: vs =>
    let st := otelCounterStep s v
    let rest := otelCounterRun st.2 vs
    (st.1.toList ++ rest.1, rest.2)

/-- Deltas emitted for a fresh counter series (initial tracked value is
the dict default `0.0`). -/
def otelCounterDeltas (vs : List Val) : List Val :=
  (otelCounterRun 0 vs).1

/-- Gauge branch of `OTELExporter.export_point` (otel_exporter.py
238-255): `delta = point.value - current_cumulative`; if `delta != 0`
add `delta` and re-track, else emit nothing. -/
def otelGaugeStep (prev v : Val) : Option Val × Val :=
  let delta := v - prev
  if delta ≠ 0 then (some delta, v)
  else (none, prev)

/-- Feed one series' point values through the gauge branch in order. -/
def otelGaugeRun (s : Val) : List Val → List Val × Val
  | [] => ([], s)
  | v :: vs =>
    let st := otelGaugeStep s v
    let rest := otelGaugeRun st.2 vs
    (st.1.toList ++ rest.1, rest.2)

/-- Deltas emitted for a fresh gauge series (dict default `0.0`). -/
def otelGaugeDeltas (vs : List Val) : List Val :=
  (otelGaugeRun 0 vs).1

/-! ### Pull-model reconciler (prom_exporter.py, `PrometheusExporter.export_point`)

The counter branch does `labeled_metric._value.set(point.value)` and the
gauge branch `metric.labels(...).set(point.value)`: both overwrite the
registry with the absolute value. -/

/-- One absolute write of `PrometheusExporter.export_point`
(prom_exporter.py 123-133): the registry value becomes the point value. -/
def promWriteStep (_prev : Option Val) (v : Val) : Option Val := some v

/-- The registry value for one series after a sequence of writes
(`none` before the first write). -/
def promLastWritten (vs : List Val) : Option Val :=
  vs.foldl promWriteStep none

/-! ### Engine spike application (engine.py, `GeneratorEngine.tick`)

`point.value *= spike_multiplier` (engine.py 156). -/

/-- Embedding of the spike multiplier application in
`GeneratorEngine.tick` (engine.py 145-156). -/
def applySpike (v mult : Val) : Val := v * mult

/-! ### Value generators (generators.py)

The numpy RNG is an external collaborator.  Its stream of draws is a
pure function of the seed and the number of draws made so far, so it is
modelled as a function parameter `stream : seed → draw index → tick
timestamp → drawn value` (the timestamp enters because
`_generate_poisson` derives the Poisson rate from the diurnally
modulated base rate at the tick's timestamp). -/

/-- Embedding of Python's `x or d` on an optional float: `None` and
`0.0` are both falsy, anything else is returned as is.  This is the
idiom `self.config.base_rate or 1.0` etc. -/
def pyOr (x : Option Val) (d : Val) : Val :=
  match x with
  | none => d
  | some r => if r = 0 then d else r

/-- The algorithm string `"poisson"`. -/
def strPoisson : Str := "poisson".data

/-- The algorithm string `"constant"`. -/
def strConstant : Str := "constant".data

/-- Increment selection in `CounterGenerator.tick` (generators.py
76-81): `"poisson"` draws from the RNG, `"constant"` uses
`self.config.base_rate or 1.0`, and any unknown algorithm name falls
back to the Poisson draw. -/
def counterIncrement (algorithm : Str) (baseRate : Option Val) (draw : Val) : Val :=
  if algorithm = strPoisson then draw
  else if algorithm = strConstant then pyOr baseRate 1
  else draw

/-- One series' state update in `CounterGenerator.tick` (generators.py
83-91): the increment is clamped with `max(0, increment)` and added to
the cumulative per-series state; the new cumulative value is emitted. -/
def counterTickValue (algorithm : Str) (baseRate : Option Val) (draw : Val)
    (current : Val) : Val :=
  current + max 0 (counterIncrement algorithm baseRate draw)

/-- The sequence of values emitted in-core for one counter series across
ticks, given the sequence of raw draws, starting from the dict default
`0.0` generalised to `current`. -/
def counterValuesFrom (algorithm : Str) (baseRate : Option Val) (current : Val) :
    List Val → List Val
  | [] => []
  | d :: ds =>
    let v := counterTickValue algorithm baseRate d current
    v :: counterValuesFrom algorithm baseRate v ds

/-- The emitted value sequence of a fresh counter series
(`self.state.get(label_key, 0.0)` defaults to `0.0`). -/
def counterValues (algorithm : Str) (baseRate : Option Val) (draws : List Val) :
    List Val :=
  counterValuesFrom algorithm baseRate 0 draws

/-! #### The full counter generator as a state machine (for determinism)

`MetricGenerator.__init__` (generators.py 26-31) selects
`seed = config.seed if config.seed is not None else global_seed` and
starts with an empty per-series state dict; `CounterGenerator.tick`
iterates the label combinations in order, drawing from the shared RNG
stream for the `"poisson"` (and fallback) algorithm and not drawing at
all for `"constant"`. -/

/-- Generator-instance state: the number of RNG draws made so far, and
the per-series cumulative totals keyed by `_label_key` (a total map
with default `0.0`, embedding `self.state.get(label_key, 0.0)`). -/
structure CounterGenState where
  rngCount : Nat
  series : Str → Val

/-- The freshly-constructed state of `MetricGenerator.__init__`: no
draws made, empty state dict. -/
def initCounterGenState : CounterGenState := ⟨0, fun _ => 0⟩

/-- Seed selection of `MetricGenerator.__init__` (generators.py 27):
the metric-specific seed if given, else the global seed. -/
def selectSeed (cfgSeed : Option Nat) (globalSeed : Nat) : Nat :=
  cfgSeed.getD globalSeed

/-- The per-combination body of `CounterGenerator.tick` over the list of
label combinations, in declared order.  Returns the emitted values (one
per combination, in order) and the updated generator state. -/
def counterGenTickGo (stream : Nat → Nat → Nat → Val) (seed : Nat)
    (algorithm : Str) (baseRate : Option Val) :
    List (List (Str × Str)) → CounterGenState → Nat → List Val × CounterGenState
  | [], st, _ => ([], st)
  | labels :: rest, st, t =>
    let key := sortedLabelStr labels
    let drawn : Val × Nat :=
      if algorithm = strPoisson then (stream seed st.rngCount t, st.rngCount + 1)
      else if algorithm = strConstant then (pyOr baseRate 1, st.rngCount)
      else (stream seed st.rngCount t, st.rngCount + 1)
    let inc := max 0 drawn.1
    let newV := st.series key + inc
    let st' : CounterGenState := ⟨drawn.2, fun k => if k = key then newV else st.series k⟩
    let restRun := counterGenTickGo stream seed algorithm baseRate rest st' t
    (newV :: restRun.1, restRun.2)

/-- `CounterGenerator.tick` (generators.py 69-91) at one timestamp. -/
def counterGenTick (stream : Nat → Nat → Nat → Val) (seed : Nat)
    (algorithm : Str) (baseRate : Option Val)
    (combos : List (List (Str × Str))) (st : CounterGenState) (t : Nat) :
    List Val × CounterGenState :=
  counterGenTickGo stream seed algorithm baseRate combos st t

/-- Run the counter generator over a finite sequence of tick
timestamps; returns the per-tick lists of emitted values. -/
def counterGenRun (stream : Nat → Nat → Nat → Val) (seed : Nat)
    (algorithm : Str) (baseRate : Option Val)
    (combos : List (List (Str × Str))) (st : CounterGenState) :
    List Nat → List (List Val)
  | [] => []
  | t :: ts =>
    let r := counterGenTick stream seed algorithm baseRate combos st t
    r.1 :: counterGenRun stream seed algorithm baseRate combos r.2 ts

/-- Number of RNG draws one series consumes per tick: `"constant"`
draws nothing, every other algorithm draws once per series. -/
def drawStep (algorithm : Str) : Nat :=
  if algorithm = strConstant then 0 else 1

/-- The raw increment the generator obtains for draw index `c` at
timestamp `t` (before clamping). -/
def rawIncrement (stream : Nat → Nat → Nat → Val) (seed : Nat)
    (algorithm : Str) (baseRate : Option Val) (c t : Nat) : Val :=
  if algorithm = strConstant then pyOr baseRate 1 else stream seed c t

/-- Modelled from the spec: the closed-form value of tick `i`, series
`j` as a pure function of the seed and the draw count — draws occur in
a fixed per-tick, per-series order, so tick `i'`, series `j` consumes
draw index `i' * K + j` (where `K` is the series count), and the
cumulative value is the sum of the clamped increments up to tick `i`. -/
def pureCounterValue (stream : Nat → Nat → Nat → Val) (seed : Nat)
    (algorithm : Str) (baseRate : Option Val) (K : Nat) (ts : List Nat)
    (i j : Nat) : Val :=
  ∑ i' ∈ Finset.range (i + 1),
    max 0 (rawIncrement stream seed algorithm baseRate
      ((i' * K + j) * drawStep algorithm) (ts.getD i' 0))

/-! ### NaN policy (generators.py)

`_handle_nan` (generators.py 57-63) drops NaN unless `allow_nan`;
`HistogramGenerator.tick` (176-193) and `SummaryGenerator.tick`
(236-251) then emit only when `value is not None and value >= 0`.
In Python, `nan >= 0` is `False`. -/

/-- Embedding of `MetricGenerator._handle_nan` (generators.py 57-63):
for NaN input, keep it when `allow_nan` else signal a drop (`none`);
ordinary values pass through. -/
def handle_nan (allow_nan : Bool) (v : FVal) : Option FVal :=
  match v with
  | none => if allow_nan then some none else none
  | some x => some (some x)

/-- Python's `value >= 0` on a possibly-NaN float: NaN compares `False`. -/
def fvalGeZero (v : FVal) : Bool :=
  match v with
  | none => false
  | some x => decide (0 ≤ x)

/-- Whether `HistogramGenerator.tick` (generators.py 190-193) emits a
point for the drawn observation `v`: `value = self._handle_nan(value)`
followed by `if value is not None and value >= 0`. -/
def histEmits (allow_nan : Bool) (v : FVal) : Bool :=
  match handle_nan allow_nan v with
  | none => false
  | some w => fvalGeZero w

/-- Whether `SummaryGenerator.tick` (generators.py 248-251) emits a
point for the drawn observation `v` (same guard as the histogram). -/
def summaryEmits (allow_nan : Bool) (v : FVal) : Bool :=
  match handle_nan allow_nan v with
  | none => false
  | some w => fvalGeZero w

/-! ### Cardinality (cardinality.py)

`hashlib.md5` and Python string formatting are external library
collaborators; they are modelled as function parameters (`mdHash`,
`fmtApply`).  One label combination is an association list from label
name to label value, in the dict's declared order. -/

/-- Embedding of `config.LabelValueSpec` (config.py 7-11): an explicit
value list, or an inclusive integer range with an optional format
template.  Pydantic places no constraint on the range. -/
structure LabelValueSpec where
  values : Option (List Str)
  range : Option (Int × Int)
  fmt : Option Str

/-- The default format template `"{}"` used when `spec.fmt` is absent. -/
def defaultFmt : Str := "\x7b\x7d".data

/-- Embedding of `generate_label_values` (cardinality.py 7-21): explicit
values win; otherwise a range `[start, end]` is expanded to the
formatted values of `range(start, end + 1)` (empty when `end < start`,
exactly as in Python); with neither, the list is empty.  `fmtApply`
stands for the external `%`/`str.format` template application. -/
def generate_label_values (fmtApply : Str → Int → Str) (spec : LabelValueSpec) :
    List Str :=
  match spec.values with
  | some vs => vs
  | none =>
    match spec.range with
    | some (s, e) =>
      (List.range (e + 1 - s).toNat).map fun i => fmtApply (spec.fmt.getD defaultFmt) (s + i)
    | none => []

/-- Embedding of `config.CardinalityProfile` (config.py 14-19): ordered
label specs, an optional series cap, and a sampling strategy. -/
structure CardinalityProfile where
  labels : List (Str × LabelValueSpec)
  series_cap : Option Nat
  sampling_strategy : Str

/-- Embedding of `dict(profile.labels)` followed by
`.update(additional_labels)` (cardinality.py 39-41): existing keys keep
their position but take the override's value; new keys are appended in
the override's order. -/
def updateSpecs (base add : List (Str × LabelValueSpec)) :
    List (Str × LabelValueSpec) :=
  (base.map fun p =>
    (p.1, ((add.find? fun q => decide (q.1 = p.1)).map Prod.snd).getD p.2))
  ++ add.filter fun q => decide (¬ base.any fun p => decide (p.1 = q.1))

/-- Embedding of the recursive `cartesian_product` (cardinality.py
54-61): for each item of the first list, prepend it to every product of
the remaining lists. -/
def cartesianProduct : List (List Str) → List (List Str)
  | [] => [[]]
  | l :: ls => l.flatMap fun item => (cartesianProduct ls).map fun rest => item :: rest

/-- The strategy string `"first_n"`. -/
def strFirstN : Str := "first_n".data

/-- The strategy string `"hash"`. -/
def strHash : Str := "hash".data

/-- The `label_hash` key of `apply_series_cap` (cardinality.py 100-102):
the external `md5` digest (parameter `mdHash`) of the sorted label-pair
string. -/
def label_hash (mdHash : Str → Nat) (labels : List (Str × Str)) : Nat :=
  mdHash (sortedLabelStr labels)

/-- The comparison `sorted(label_combinations, key=label_hash)` sorts by. -/
def hashLe (mdHash : Str → Nat) (a b : List (Str × Str)) : Prop :=
  label_hash mdHash a ≤ label_hash mdHash b

instance (mdHash : Str → Nat) : DecidableRel (hashLe mdHash) := fun a b =>
  inferInstanceAs (Decidable (_ ≤ _))

/-- Embedding of `apply_series_cap` (cardinality.py 79-108): `first_n`
truncates to the first `cap` combinations; `hash` stably sorts all
combinations ascending by the hash of their sorted label-pair string
and takes the first `cap`; any other strategy truncates like
`first_n`. -/
def apply_series_cap (mdHash : Str → Nat) (label_combinations : List (List (Str × Str)))
    (cap : Nat) (strategy : Str) : List (List (Str × Str)) :=
  if strategy = strFirstN then label_combinations.take cap
  else if strategy = strHash then
    (List.insertionSort (hashLe mdHash) label_combinations).take cap
  else label_combinations.take cap

/-- Embedding of `generate_label_space` (cardinality.py 24-76): merge
the profile's specs with the metric-specific overrides, expand each
dimension, take the Cartesian product in declared order, and apply the
series cap when `profile.series_cap` is truthy and the product is
strictly larger than the cap. -/
def generate_label_space (fmtApply : Str → Int → Str) (mdHash : Str → Nat)
    (profile : CardinalityProfile)
    (additional : List (Str × LabelValueSpec)) : List (List (Str × Str)) :=
  let allSpecs := updateSpecs profile.labels additional
  if allSpecs.isEmpty then [[]]
  else
    let names := allSpecs.map Prod.fst
    let valueLists := allSpecs.map fun p => generate_label_values fmtApply p.2
    let combos := (cartesianProduct valueLists).map fun c => names.zip c
    match profile.series_cap with
    | some cap =>
      if cap ≠ 0 ∧ combos.length > cap then
        apply_series_cap mdHash combos cap profile.sampling_strategy
      else combos
    | none => combos

/-! ### Configuration-time validation (config.py)

`Config` carries two validators: `validate_metrics` (at least one
metric, unique names) and `validate_profiles_referenced` (every metric's
profile exists).  `LabelValueSpec` itself has no validator: pydantic
only checks the field types, which any well-typed embedding value
satisfies by construction. -/

/-- The slice of `config.MetricConfig` the `Config` validators read. -/
structure MetricConfigV where
  name : Str
  profile : Str

/-- The slice of `config.Config` its validators read. -/
structure ConfigV where
  profiles : List (Str × CardinalityProfile)
  metrics : List MetricConfigV

/-- Embedding of `Config.validate_metrics` (config.py 140-151): the
metric list is non-empty and metric names are unique. -/
def validate_metrics (ms : List MetricConfigV) : Bool :=
  (¬ ms.isEmpty) && (ms.map MetricConfigV.name).Nodup

/-- Embedding of `Config.validate_profiles_referenced` (config.py
153-160): every metric references an existing profile. -/
def validate_profiles_referenced (c : ConfigV) : Bool :=
  c.metrics.all fun m => c.profiles.any fun p => decide (p.1 = m.profile)

/-- The whole of the load-time validation `Config` performs beyond
pydantic's structural type checks. -/
def configValidate (c : ConfigV) : Bool :=
  validate_metrics c.metrics && validate_profiles_referenced c

/-! ## Helper lemmas -/

/-- Along a reset-free run (tracked value weakly below every incoming
value, values non-decreasing), the counter reconciler's emitted deltas
sum to the distance travelled, and the final tracked value is the last
incoming value. -/
theorem otelCounterRun_conserves : ∀ (vs : List Val) (s : Val),
    List.Chain' (· ≤ ·) (s :: vs) →
    (otelCounterRun s vs).1.sum + s = (otelCounterRun s vs).2 ∧
    (otelCounterRun s vs).2 = vs.getLastD s
  | [], s, _ => by simp [otelCounterRun]
  | v :: vs, s, h => by
    have hsv : s ≤ v := (List.chain'_cons.mp h).1
    have htail : List.Chain' (· ≤ ·) (v :: vs) := (List.chain'_cons.mp h).2
    have ih := otelCounterRun_conserves vs v htail
    rcases lt_or_eq_of_le hsv with hlt | heq
    · have hstep : otelCounterStep s v = (some (v - s), v) := by
        have : 0 < v - s := by linarith
        simp [otelCounterStep, this]
      simp only [otelCounterRun, hstep, Option.toList_some, List.singleton_append,
        List.sum_cons, List.getLastD_cons]
      exact ⟨by linarith [ih.1], ih.2⟩
    · have hstep : otelCounterStep s v = (none, s) := by
        simp [otelCounterStep, ← heq]
      have hrun : otelCounterRun s vs = otelCounterRun v vs := by rw [heq]
      simp only [otelCounterRun, hstep, Option.toList_none, List.nil_append,
        List.getLastD_cons, hrun]
      refine ⟨?_, ih.2⟩
      rw [heq]; exact ih.1

/-- The gauge reconciler's emitted deltas always sum to the distance
travelled, and the final tracked value is the last incoming value. -/
theorem otelGaugeRun_conserves : ∀ (vs : List Val) (s : Val),
    (otelGaugeRun s vs).1.sum + s = (otelGaugeRun s vs).2 ∧
    (otelGaugeRun s vs).2 = vs.getLastD s
  | [], s => by simp [otelGaugeRun]
  | v :: vs, s => by
    by_cases hne : v - s ≠ 0
    · have hstep : otelGaugeStep s v = (some (v - s), v) := by
        simp [otelGaugeStep, hne]
      have ih := otelGaugeRun_conserves vs v
      simp only [otelGaugeRun, hstep, Option.toList_some, List.singleton_append,
        List.sum_cons, List.getLastD_cons]
      exact ⟨by linarith [ih.1], ih.2⟩
    · have heq : s = v := by push_neg at hne; linarith
      have hstep : otelGaugeStep s v = (none, s) := by
        simp [otelGaugeStep, hne]
      have ih := otelGaugeRun_conserves vs v
      have hrun : otelGaugeRun s vs = otelGaugeRun v vs := by rw [heq]
      simp only [otelGaugeRun, hstep, Option.toList_none, List.nil_append,
        List.getLastD_cons, hrun]
      refine ⟨?_, ih.2⟩
      rw [heq]; exact ih.1

/-! ## Claims -/

/-- C1.  Counter delta conservation (push model) and absolute write
(pull model): on the cumulative input sequence `[5, 12, 18, 25, 25]`
the push-model reconciler emits exactly the deltas `[5, 7, 6, 7]`
(nothing for the fifth point, whose delta is 0), their sum is the final
cumulative value 25, and the pull-model reconciler's last written value
is also 25; in general, for any finite reset-free non-decreasing
cumulative sequence the emitted deltas sum to the final cumulative
value. -/
theorem counter_delta_conservation :
    otelCounterDeltas [5, 12, 18, 25, 25] = [5, 7, 6, 7] ∧
    (otelCounterDeltas [5, 12, 18, 25, 25]).sum = 25 ∧
    promLastWritten [5, 12, 18, 25, 25] = some 25 ∧
    ∀ vs : List Val, List.Chain' (· ≤ ·) (0 :: vs) →
      (otelCounterDeltas vs).sum = vs.getLastD 0 := by
  refine ⟨?_, ?_, ?_, ?_⟩
  · norm_num [otelCounterDeltas, otelCounterRun, otelCounterStep]
  · norm_num [otelCounterDeltas, otelCounterRun, otelCounterStep]
  · norm_num [promLastWritten, promWriteStep]
  · intro vs h
    have hc := otelCounterRun_conserves vs 0 h
    have := hc.1
    rw [hc.2] at this
    simpa [otelCounterDeltas] using this

/-- Witness for C1: the general conservation identity instantiated on
the concrete reset-free sequence `[3, 4]`. -/
theorem counter_delta_conservation_witness :
    (otelCounterDeltas [3, 4]).sum = [(3 : Val), 4].getLastD 0 :=
  counter_delta_conservation.2.2.2 [3, 4]
    (by norm_num [List.chain'_cons])

/-- C2.  Gauge delta conservation: every emitted gauge delta equals
`incoming − last_communicated` and is non-zero (zero deltas are not
sent); on first observation the tracked value defaults to 0, so the
first delta equals the first absolute value; on the absolute sequence
`[50, 55, 53, 60, 60]` the emitted deltas are `[50, 5, -2, 7]`, their
running total is the final absolute value 60, which is also the
pull-model reconciler's final written value; in general the emitted
deltas sum to the final absolute value. -/
theorem gauge_delta_conservation :
    otelGaugeDeltas [50, 55, 53, 60, 60] = [50, 5, -2, 7] ∧
    (otelGaugeDeltas [50, 55, 53, 60, 60]).sum = 60 ∧
    promLastWritten [50, 55, 53, 60, 60] = some 60 ∧
    (∀ prev v d : Val, (otelGaugeStep prev v).1 = some d →
      d = v - prev ∧ d ≠ 0) ∧
    (∀ (v : Val) (vs : List Val), v ≠ 0 →
      otelGaugeDeltas (v :: vs) = v :: (otelGaugeRun v vs).1) ∧
    ∀ vs : List Val, (otelGaugeDeltas vs).sum = vs.getLastD 0 := by
  refine ⟨?_, ?_, ?_, ?_, ?_, ?_⟩
  · norm_num [otelGaugeDeltas, otelGaugeRun, otelGaugeStep]
  · norm_num [otelGaugeDeltas, otelGaugeRun, otelGaugeStep]
  · norm_num [promLastWritten, promWriteStep]
  · intro prev v d hd
    by_cases hne : v - prev ≠ 0
    · simp only [otelGaugeStep, if_pos hne] at hd
      cases hd
      exact ⟨rfl, hne⟩
    · simp [otelGaugeStep, hne] at hd
  · intro v vs hv
    simp [otelGaugeDeltas, otelGaugeRun, otelGaugeStep, sub_zero, hv]
  · intro vs
    have hc := otelGaugeRun_conserves vs 0
    have := hc.1
    rw [hc.2] at this
    simpa [otelGaugeDeltas] using this

/-- Witness for C2: the emitted-delta characterisation and the
first-observation rule instantiated concretely. -/
theorem gauge_delta_conservation_witness :
    ((7 : Val) = 10 - 3 ∧ (7 : Val) ≠ 0) ∧
    otelGaugeDeltas [4] = 4 :: (otelGaugeRun 4 []).1 :=
  ⟨gauge_delta_conservation.2.2.2.1 3 10 7
      (by norm_num [otelGaugeStep]),
    gauge_delta_conservation.2.2.2.2.1 4 [] (by norm_num)⟩

/-- C3.  Push-model counter reconciliation rule, by the sign of
`delta = incoming − tracked`: positive deltas are sent as is and the
tracked value re-based on the incoming value; a zero delta sends
nothing and leaves the tracked value unchanged; a negative delta
(counter reset) sends the entire incoming value and re-bases — the
negative computed delta itself is never what is sent (the reset is
handled by the re-basing rule on the normal code path, not raised as an
error). -/
theorem counter_reconciliation_cases (prev v : Val) :
    (0 < v - prev → otelCounterStep prev v = (some (v - prev), v)) ∧
    (v - prev = 0 → otelCounterStep prev v = (none, prev)) ∧
    (v - prev < 0 → otelCounterStep prev v = (some v, v)) ∧
    ∀ d, (otelCounterStep prev v).1 = some d →
      (0 < v - prev ∧ d = v - prev) ∨ (v - prev < 0 ∧ d = v) := by
  refine ⟨?_, ?_, ?_, ?_⟩
  · intro h; simp [otelCounterStep, h]
  · intro h; simp [otelCounterStep, h]
  · intro h
    have h' : ¬ (0 < v - prev) := by linarith
    simp [otelCounterStep, h, h']
  · intro d hd
    rcases lt_trichotomy (v - prev) 0 with h | h | h
    · have h' : ¬ (0 < v - prev) := by linarith
      simp only [otelCounterStep, if_neg h', if_pos h] at hd
      cases hd
      exact Or.inr ⟨h, rfl⟩
    · simp [otelCounterStep, h] at hd
    · simp only [otelCounterStep, if_pos h] at hd
      cases hd
      exact Or.inl ⟨h, rfl⟩

/-- Witness for C3: a counter reset (tracked 5, incoming 3) sends the
entire incoming value 3 and re-bases the tracked value to 3. -/
theorem counter_reconciliation_cases_witness :
    otelCounterStep 5 3 = (some 3, 3) :=
  (counter_reconciliation_cases 5 3).2.2.1 (by norm_num)

/-- C10.  A spike multiplier poisons push-model counter delta
conservation: with multiplier `m > 1` applied at one tick to cumulative
value `v₁ > 0`, the reconciler tracks the multiplied value `v₁ * m`; if
the next unmultiplied cumulative value `v₂` is below `v₁ * m`, the
reconciler takes the reset branch and re-sends the whole of `v₂`, so
the deltas sent sum to strictly more than the final cumulative value
`v₂`. -/
theorem spike_poisons_counter_conservation (m v₁ v₂ : Val)
    (hm : 1 < m) (hv : 0 < v₁) (hlt : v₂ < applySpike v₁ m) :
    otelCounterStep 0 (applySpike v₁ m) =
      (some (applySpike v₁ m), applySpike v₁ m) ∧
    otelCounterStep (applySpike v₁ m) v₂ = (some v₂, v₂) ∧
    otelCounterDeltas [applySpike v₁ m, v₂] = [applySpike v₁ m, v₂] ∧
    v₂ < (otelCounterDeltas [applySpike v₁ m, v₂]).sum := by
  have hpos : 0 < v₁ * m := mul_pos hv (lt_trans one_pos hm)
  have h1 : otelCounterStep 0 (applySpike v₁ m) =
      (some (applySpike v₁ m), applySpike v₁ m) := by
    simp only [otelCounterStep, applySpike, sub_zero]
    rw [if_pos hpos]
  have hneg : v₂ - v₁ * m < 0 := by
    simp only [applySpike] at hlt; linarith
  have h2 : otelCounterStep (applySpike v₁ m) v₂ = (some v₂, v₂) := by
    simp only [otelCounterStep, applySpike]
    rw [if_neg (by linarith), if_pos hneg]
  have h3 : otelCounterDeltas [applySpike v₁ m, v₂] = [applySpike v₁ m, v₂] := by
    simp [otelCounterDeltas, otelCounterRun, h1, h2]
  refine ⟨h1, h2, h3, ?_⟩
  rw [h3]
  simp only [applySpike, List.sum_cons, List.sum_nil]
  linarith

/-- Witness for C10: multiplier 2 on cumulative value 5 followed by
unmultiplied cumulative value 6 makes the reconciler send `[10, 6]`,
whose sum 16 exceeds the final cumulative value 6. -/
theorem spike_poisons_counter_conservation_witness :
    otelCounterDeltas [applySpike 5 2, 6] = [applySpike 5 2, 6] ∧
    (6 : Val) < (otelCounterDeltas [applySpike 5 2, 6]).sum :=
  ⟨(spike_poisons_counter_conservation 2 5 6 (by norm_num) (by norm_num)
      (by norm_num [applySpike])).2.2.1,
    (spike_poisons_counter_conservation 2 5 6 (by norm_num) (by norm_num)
      (by norm_num [applySpike])).2.2.2⟩

/-- For any start state, the counter series values from that state form
a non-decreasing chain, and every emitted value dominates the start
state (the clamped increment `max 0 increment` is non-negative). -/
theorem counterValuesFrom_mono (algorithm : Str) (baseRate : Option Val) :
    ∀ (draws : List Val) (s : Val),
      List.Chain' (· ≤ ·) (s :: counterValuesFrom algorithm baseRate s draws) ∧
      ∀ v ∈ counterValuesFrom algorithm baseRate s draws, s ≤ v
  | [], s => by simp [counterValuesFrom]
  | d :: ds, s => by
    set v := counterTickValue algorithm baseRate d s with hv
    have hsv : s ≤ v := by
      rw [hv]
      unfold counterTickValue
      have := le_max_left (0 : Val) (counterIncrement algorithm baseRate d)
      linarith
    have ih := counterValuesFrom_mono algorithm baseRate ds v
    constructor
    · exact List.chain'_cons.mpr ⟨hsv, ih.1⟩
    · intro x hx
      rcases List.mem_cons.mp hx with h | h
      · exact h ▸ hsv
      · exact le_trans hsv (ih.2 x h)

/-- C4.  Counter monotonicity: each per-tick increment is clamped with
`max 0 ·` before accumulation, so for every counter series the in-core
emitted value sequence is non-decreasing and non-negative, whatever the
configured algorithm string (poisson, constant or unknown) and whatever
the raw draws were — spike multipliers are applied outside the
generator and are not part of this sequence. -/
theorem counter_monotonicity (algorithm : Str) (baseRate : Option Val)
    (draws : List Val) :
    List.Chain' (· ≤ ·) (counterValues algorithm baseRate draws) ∧
    ∀ v ∈ counterValues algorithm baseRate draws, 0 ≤ v := by
  have h := counterValuesFrom_mono algorithm baseRate draws 0
  exact ⟨h.1.tail, h.2⟩

/-- C8 counterexample: with `allow_nan = True` a NaN observation is
still not emitted by the histogram (or summary) tick — `nan >= 0` is
false in Python, so the guard `value is not None and value >= 0`
rejects it. -/
theorem histogram_nan_passthrough_counterexample :
    histEmits true none = false ∧ summaryEmits true none = false :=
  ⟨rfl, rfl⟩

/-- C8 (amended).  Histogram/Summary emission policy: a drawn
observation is emitted exactly when it is a defined (non-NaN) value
that is non-negative; NaN observations are always discarded, whether or
not `allow_nan` is set — `allow_nan` only lets NaN past `_handle_nan`,
after which the `value >= 0` guard (false for NaN) discards it. -/
theorem histogram_nan_policy (allow_nan : Bool) (v : FVal) :
    (histEmits allow_nan v = true ↔ ∃ x : Val, v = some x ∧ 0 ≤ x) ∧
    (summaryEmits allow_nan v = true ↔ ∃ x : Val, v = some x ∧ 0 ≤ x) := by
  cases v with
  | none => cases allow_nan <;>
      simp [histEmits, summaryEmits, handle_nan, fvalGeZero]
  | some x => cases allow_nan <;>
      simp [histEmits, summaryEmits, handle_nan, fvalGeZero]

/-- Witness for C8: a defined non-negative observation is emitted. -/
theorem histogram_nan_policy_witness :
    histEmits false (some 3) = true :=
  (histogram_nan_policy false (some 3)).1.2 ⟨3, rfl, by norm_num⟩

/-- A label-value specification whose range is `[5, 3]` (end < start). -/
def badRangeSpec : LabelValueSpec := ⟨none, some (5, 3), none⟩

/-- A profile using the malformed range. -/
def badRangeProfile : CardinalityProfile :=
  ⟨[("x".data, badRangeSpec)], none, strFirstN⟩

/-- A full configuration that carries the malformed range. -/
def badRangeConfig : ConfigV :=
  ⟨[("p".data, badRangeProfile)], [⟨"m".data, "p".data⟩]⟩

/-- C9 counterexample: a configuration whose only profile holds a label
range with `end < start` passes the load-time validation (it is not
rejected), and expanding the malformed spec silently yields the empty
value list rather than an error. -/
theorem malformed_range_counterexample :
    configValidate badRangeConfig = true ∧
    generate_label_values (fun _ _ => []) badRangeSpec = [] := by
  constructor
  · decide
  · rfl

/-- C9 (amended).  A malformed range (`end < start`) is not a
configuration-time error: load-time validation checks only metric-list
non-emptiness, metric-name uniqueness and profile references — it is
independent of the profiles' label-spec contents — while
`generate_label_values` returns the empty list for such a range, so the
label space built from it is empty and nothing surfaces at tick time. -/
theorem malformed_range_not_rejected (fmtApply : Str → Int → Str)
    (mdHash : Str → Nat) (s e : Int) (f : Option Str) (he : e < s) :
    generate_label_values fmtApply ⟨none, some (s, e), f⟩ = [] ∧
    generate_label_space fmtApply mdHash
      ⟨[("x".data, ⟨none, some (s, e), f⟩)], none, strFirstN⟩ [] = [] ∧
    ∀ (ps : List (Str × CardinalityProfile)) (g : CardinalityProfile → CardinalityProfile)
      (ms : List MetricConfigV),
      configValidate ⟨ps.map (fun p => (p.1, g p.2)), ms⟩ = configValidate ⟨ps, ms⟩ := by
  have hempty : generate_label_values fmtApply ⟨none, some (s, e), f⟩ = [] := by
    have h0 : (e + 1 - s).toNat = 0 := by omega
    simp [generate_label_values, h0]
  refine ⟨hempty, ?_, ?_⟩
  · simp [generate_label_space, updateSpecs, hempty, cartesianProduct]
  · intro ps g ms
    simp [configValidate, validate_profiles_referenced, List.any_map,
      Function.comp_def]

/-- Witness for C9 (amended) at the concrete malformed range `[5, 3]`. -/
theorem malformed_range_not_rejected_witness :
    generate_label_values (fun _ _ => []) ⟨none, some (5, 3), none⟩ = [] :=
  (malformed_range_not_rejected (fun _ _ => []) (fun _ => 0) 5 3 none
    (by norm_num)).1

/-- Splitting at a unique separator: when the separator character
occurs in neither left part, equal concatenations force equal parts. -/
theorem append_sep_inj (c : Char) : ∀ (a₁ a₂ b₁ b₂ : Str),
    c ∉ a₁ → c ∉ a₂ → a₁ ++ c :: b₁ = a₂ ++ c :: b₂ → a₁ = a₂ ∧ b₁ = b₂
  | [], [], b₁, b₂, _, _, h => by simpa using h
  | [], x :: a₂, b₁, b₂, _, h₂, h => by
    simp only [List.nil_append, List.cons_append, List.cons.injEq] at h
    exact absurd (by rw [h.1]; exact List.mem_cons_self x a₂) h₂
  | x :: a₁, [], b₁, b₂, h₁, _, h => by
    simp only [List.nil_append, List.cons_append, List.cons.injEq] at h
    exact absurd (by rw [← h.1]; exact List.mem_cons_self x a₁) h₁
  | x :: a₁, y :: a₂, b₁, b₂, h₁, h₂, h => by
    simp only [List.cons_append, List.cons.injEq] at h
    obtain ⟨hxy, h'⟩ := h
    have ih := append_sep_inj c a₁ a₂ b₁ b₂
      (fun hm => h₁ (List.mem_cons_of_mem x hm))
      (fun hm => h₂ (List.mem_cons_of_mem y hm)) h'
    exact ⟨by rw [hxy, ih.1], ih.2⟩

/-- A `k=v` chunk is never the empty string. -/
theorem pairChunk_ne_nil (p : Str × Str) : pairChunk p ≠ [] := by
  unfold pairChunk
  intro h
  exact absurd (List.append_eq_nil.mp h).2 (List.cons_ne_nil _ _)

/-- A `k=v` chunk contains no comma when neither part does. -/
theorem comma_not_mem_pairChunk {p : Str × Str}
    (h1 : ',' ∉ p.1) (h2 : ',' ∉ p.2) : ',' ∉ pairChunk p := by
  unfold pairChunk
  intro h
  rcases List.mem_append.mp h with h | h
  · exact h1 h
  · rcases List.mem_cons.mp h with h | h
    · exact absurd h (by decide)
    · exact h2 h

/-- Chunk decoding is unambiguous when the name contains no `=`. -/
theorem pairChunk_inj {p q : Str × Str} (hp : '=' ∉ p.1) (hq : '=' ∉ q.1)
    (h : pairChunk p = pairChunk q) : p = q := by
  obtain ⟨h1, h2⟩ := append_sep_inj '=' p.1 q.1 p.2 q.2 hp hq h
  exact Prod.ext h1 h2

/-- The comma-join is injective on lists of non-empty comma-free
chunks. -/
theorem joinChunks_inj : ∀ (cs₁ cs₂ : List Str),
    (∀ s ∈ cs₁, ',' ∉ s ∧ s ≠ []) → (∀ s ∈ cs₂, ',' ∉ s ∧ s ≠ []) →
    joinChunks cs₁ = joinChunks cs₂ → cs₁ = cs₂
  | [], [], _, _, _ => rfl
  | [], [c], _, h₂, h => by
    exact absurd h.symm (h₂ c (List.mem_singleton_self c)).2
  | [], c :: c' :: cs, _, _, h => by
    simp only [joinChunks] at h
    exact absurd h.symm (by simp)
  | [c], [], h₁, _, h => by
    exact absurd h (h₁ c (List.mem_singleton_self c)).2
  | c :: c' :: cs, [], _, _, h => by
    simp only [joinChunks] at h
    exact absurd h (by simp)
  | [c₁], [c₂], _, _, h => by
    simp only [joinChunks] at h
    rw [h]
  | [c₁], c₂ :: c₃ :: cs₂, h₁, h₂, h => by
    simp only [joinChunks] at h
    have hmem : ',' ∈ c₁ := by
      rw [h]
      exact List.mem_append.mpr (Or.inr (List.mem_cons_self _ _))
    exact absurd hmem (h₁ c₁ (List.mem_singleton_self c₁)).1
  | c₁ :: c₂ :: cs₁, [c], h₁, h₂, h => by
    simp only [joinChunks] at h
    have hmem : ',' ∈ c := by
      rw [← h]
      exact List.mem_append.mpr (Or.inr (List.mem_cons_self _ _))
    exact absurd hmem (h₂ c (List.mem_singleton_self c)).1
  | c₁ :: c₂ :: cs₁, d₁ :: d₂ :: cs₂, h₁, h₂, h => by
    simp only [joinChunks] at h
    obtain ⟨hh, ht⟩ := append_sep_inj ',' c₁ d₁ _ _
      (h₁ c₁ (List.mem_cons_self _ _)).1 (h₂ d₁ (List.mem_cons_self _ _)).1 h
    have ih := joinChunks_inj (c₂ :: cs₁) (d₂ :: cs₂)
      (fun s hs => h₁ s (List.mem_cons_of_mem c₁ hs))
      (fun s hs => h₂ s (List.mem_cons_of_mem d₁ hs)) ht
    rw [hh, ih]

/-- Mapping `pairChunk` is injective when no name contains `=`. -/
theorem map_pairChunk_inj : ∀ (l₁ l₂ : List (Str × Str)),
    (∀ p ∈ l₁, '=' ∉ p.1) → (∀ p ∈ l₂, '=' ∉ p.1) →
    l₁.map pairChunk = l₂.map pairChunk → l₁ = l₂
  | [], [], _, _, _ => rfl
  | [], q :: l₂, _, _, h => by simp at h
  | p :: l₁, [], _, _, h => by simp at h
  | p :: l₁, q :: l₂, h₁, h₂, h => by
    simp only [List.map_cons, List.cons.injEq] at h
    have hh := pairChunk_inj (h₁ p (List.mem_cons_self _ _))
      (h₂ q (List.mem_cons_self _ _)) h.1
    have ih := map_pairChunk_inj l₁ l₂
      (fun r hr => h₁ r (List.mem_cons_of_mem p hr))
      (fun r hr => h₂ r (List.mem_cons_of_mem q hr)) h.2
    rw [hh, ih]

/-- A label list describes the same mapping as its sorted form. -/
theorem sortPairs_perm (l : List (Str × Str)) : (sortPairs l).Perm l :=
  List.perm_insertionSort pairLe l

/-- Separator-free labels: every pair's name contains neither `,` nor
`=`, and its value contains no `,`. -/
def sepFree (l : List (Str × Str)) : Prop :=
  ∀ p ∈ l, ',' ∉ p.1 ∧ '=' ∉ p.1 ∧ ',' ∉ p.2

instance (l : List (Str × Str)) : Decidable (sepFree l) :=
  List.decidableBAll _ l

/-- On separator-free labels, equal sorted label strings force equal
label mappings (the two lists are permutations of one another). -/
theorem sortedLabelStr_inj {l₁ l₂ : List (Str × Str)}
    (h₁ : sepFree l₁) (h₂ : sepFree l₂)
    (h : sortedLabelStr l₁ = sortedLabelStr l₂) : l₁.Perm l₂ := by
  have hs₁ : sepFree (sortPairs l₁) := fun p hp => h₁ p ((sortPairs_perm l₁).mem_iff.mp hp)
  have hs₂ : sepFree (sortPairs l₂) := fun p hp => h₂ p ((sortPairs_perm l₂).mem_iff.mp hp)
  have hj := joinChunks_inj ((sortPairs l₁).map pairChunk) ((sortPairs l₂).map pairChunk)
    (by
      intro s hs
      obtain ⟨p, hp, rfl⟩ := List.mem_map.mp hs
      exact ⟨comma_not_mem_pairChunk (hs₁ p hp).1 (hs₁ p hp).2.2, pairChunk_ne_nil p⟩)
    (by
      intro s hs
      obtain ⟨p, hp, rfl⟩ := List.mem_map.mp hs
      exact ⟨comma_not_mem_pairChunk (hs₂ p hp).1 (hs₂ p hp).2.2, pairChunk_ne_nil p⟩)
    h
  have heq := map_pairChunk_inj (sortPairs l₁) (sortPairs l₂)
    (fun p hp => (hs₁ p hp).2.1) (fun p hp => (hs₂ p hp).2.1) hj
  exact ((sortPairs_perm l₁).symm.trans (heq ▸ sortPairs_perm l₂))

/-- C7 counterexample: the canonical per-series key is not injective
over arbitrary label mappings — the single-label mapping
`a ↦ "1,b=2"` and the two-label mapping `a ↦ "1", b ↦ "2"` are
different mappings with the same metric name, yet produce the same key
string `m:a=1,b=2`. -/
theorem series_key_injective_counterexample :
    seriesKey "m".data [("a".data, "1,b=2".data)] =
      seriesKey "m".data [("a".data, "1".data), ("b".data, "2".data)] ∧
    ¬ ([(("a".data : Str), ("1,b=2".data : Str))].Perm
        [("a".data, "1".data), ("b".data, "2".data)]) := by
  constructor
  · decide
  · decide

/-- C7 (amended).  SeriesKey injectivity under separator-freedom: when
metric names contain no `:`, label names contain neither `,` nor `=`,
and label values contain no `,` (all true of validated label names and
of any value not using the separator characters), equal series keys
force equal metric names and equal label mappings.  Unrestricted
injectivity fails (see the counterexample, whose label value contains
`,` and `=`). -/
theorem series_key_injective {m₁ m₂ : Str} {l₁ l₂ : List (Str × Str)}
    (hm₁ : ':' ∉ m₁) (hm₂ : ':' ∉ m₂)
    (h₁ : sepFree l₁) (h₂ : sepFree l₂)
    (h : seriesKey m₁ l₁ = seriesKey m₂ l₂) :
    m₁ = m₂ ∧ l₁.Perm l₂ := by
  obtain ⟨hm, hl⟩ := append_sep_inj ':' m₁ m₂ _ _ hm₁ hm₂ h
  exact ⟨hm, sortedLabelStr_inj h₁ h₂ hl⟩

/-- Witness for C7 (amended), at a concrete pair of keys. -/
theorem series_key_injective_witness :
    ("m".data : Str) = "m".data ∧
    [(("a".data : Str), ("1".data : Str))].Perm [("a".data, "1".data)] :=
  @series_key_injective "m".data "m".data [("a".data, "1".data)]
    [("a".data, "1".data)] (by decide) (by decide) (by decide) (by decide) rfl

instance (mdHash : Str → Nat) : IsTotal (List (Str × Str)) (hashLe mdHash) :=
  ⟨fun a b => Nat.le_total (label_hash mdHash a) (label_hash mdHash b)⟩

instance (mdHash : Str → Nat) : IsTrans (List (Str × Str)) (hashLe mdHash) :=
  ⟨fun _ _ _ hab hbc => Nat.le_trans hab hbc⟩

/-- Lists whose images under `f` agree pointwise-injectively are equal
when their mapped images are equal. -/
theorem eq_of_map_eq {α β : Type} (f : α → β) : ∀ (l₁ l₂ : List α),
    (∀ a ∈ l₁, ∀ b ∈ l₂, f a = f b → a = b) →
    l₁.map f = l₂.map f → l₁ = l₂
  | [], [], _, _ => rfl
  | [], _ :: _, _, h => by simp at h
  | _ :: _, [], _, h => by simp at h
  | a :: l₁, b :: l₂, hinj, h => by
    simp only [List.map_cons, List.cons.injEq] at h
    have hab := hinj a (List.mem_cons_self _ _) b (List.mem_cons_self _ _) h.1
    have ih := eq_of_map_eq f l₁ l₂
      (fun x hx y hy => hinj x (List.mem_cons_of_mem a hx) y (List.mem_cons_of_mem b hy))
      h.2
    rw [hab, ih]

/-- The hash-sort of `apply_series_cap` is independent of the input
list's order, as long as the hash separates the list's elements: any
permutation of the combination list sorts to the same list. -/
theorem hash_sort_perm_invariant (H : Str → Nat)
    {l₁ l₂ : List (List (Str × Str))} (hp : l₁.Perm l₂)
    (hinj : ∀ a ∈ l₁, ∀ b ∈ l₁, label_hash H a = label_hash H b → a = b) :
    List.insertionSort (hashLe H) l₁ = List.insertionSort (hashLe H) l₂ := by
  have hperm : (List.insertionSort (hashLe H) l₁).Perm (List.insertionSort (hashLe H) l₂) :=
    ((List.perm_insertionSort _ l₁).trans hp).trans (List.perm_insertionSort _ l₂).symm
  have hs₁ : (List.insertionSort (hashLe H) l₁).Sorted (hashLe H) :=
    List.sorted_insertionSort _ l₁
  have hs₂ : (List.insertionSort (hashLe H) l₂).Sorted (hashLe H) :=
    List.sorted_insertionSort _ l₂
  have hmap : ((List.insertionSort (hashLe H) l₁).map (label_hash H)).Sorted (· ≤ ·) :=
    List.pairwise_map.mpr hs₁
  have hmap₂ : ((List.insertionSort (hashLe H) l₂).map (label_hash H)).Sorted (· ≤ ·) :=
    List.pairwise_map.mpr hs₂
  have hmeq : (List.insertionSort (hashLe H) l₁).map (label_hash H)
      = (List.insertionSort (hashLe H) l₂).map (label_hash H) :=
    List.eq_of_perm_of_sorted (hperm.map _) hmap hmap₂
  refine eq_of_map_eq (label_hash H) _ _ ?_ hmeq
  intro a ha b hb hab
  have ha' : a ∈ l₁ := (List.perm_insertionSort _ l₁).mem_iff.mp ha
  have hb' : b ∈ l₁ := hp.mem_iff.mpr ((List.perm_insertionSort _ l₂).mem_iff.mp hb)
  exact hinj a ha' b hb' hab

/-- C6.  Series cap behaviour: on a profile with 100 range-generated
label values and `series_cap = 10, strategy = first_n`, the label space
is exactly the first 10 combinations in declared order; `first_n`
always truncates to the first `cap` combinations of the product order;
`hash` always yields exactly `min cap M` combinations (so exactly `cap`
when the product `M` exceeds the cap), obtained by sorting all
combinations ascending by the hash of their sorted label-pair string
and taking the first `cap` — a selection invariant under reordering of
the input list whenever the hash separates the combinations; and when
the product does not exceed the cap, every combination is kept. -/
theorem series_cap_behaviour :
    (generate_label_space (fun _ i => Nat.toDigits 10 i.toNat) (fun _ => 0)
        ⟨[("id".data, ⟨none, some (1, 100), none⟩)], some 10, strFirstN⟩ []
      = [[("id".data, "1".data)], [("id".data, "2".data)], [("id".data, "3".data)],
         [("id".data, "4".data)], [("id".data, "5".data)], [("id".data, "6".data)],
         [("id".data, "7".data)], [("id".data, "8".data)], [("id".data, "9".data)],
         [("id".data, "10".data)]]) ∧
    (∀ (H : Str → Nat) (combos : List (List (Str × Str))) (cap : Nat),
      apply_series_cap H combos cap strFirstN = combos.take cap) ∧
    (∀ (H : Str → Nat) (combos : List (List (Str × Str))) (cap : Nat),
      apply_series_cap H combos cap strHash
        = (List.insertionSort (hashLe H) combos).take cap ∧
      (apply_series_cap H combos cap strHash).length = min cap combos.length) ∧
    (∀ (H : Str → Nat) (l₁ l₂ : List (List (Str × Str))) (cap : Nat),
      l₁.Perm l₂ →
      (∀ a ∈ l₁, ∀ b ∈ l₁, label_hash H a = label_hash H b → a = b) →
      apply_series_cap H l₁ cap strHash = apply_series_cap H l₂ cap strHash) ∧
    (∀ (fa : Str → Int → Str) (H : Str → Nat)
       (labels : List (Str × LabelValueSpec)) (additional : List (Str × LabelValueSpec))
       (cap : Nat) (strat : Str),
      (generate_label_space fa H ⟨labels, none, strat⟩ additional).length ≤ cap →
      generate_label_space fa H ⟨labels, some cap, strat⟩ additional
        = generate_label_space fa H ⟨labels, none, strat⟩ additional) := by
  refine ⟨?_, ?_, ?_, ?_, ?_⟩
  · decide
  · intro H combos cap
    simp [apply_series_cap]
  · intro H combos cap
    have hne : strHash ≠ strFirstN := by decide
    constructor
    · simp [apply_series_cap, hne]
    · simp [apply_series_cap, hne, List.length_take, List.length_insertionSort]
  · intro H l₁ l₂ cap hp hinj
    have hne : strHash ≠ strFirstN := by decide
    simp only [apply_series_cap, if_neg hne, if_pos rfl]
    rw [hash_sort_perm_invariant H hp hinj]
    simp
  · intro fa H labels additional cap strat hle
    simp only [generate_label_space] at hle ⊢
    by_cases hemp : (updateSpecs labels additional).isEmpty
    · simp [hemp]
    · simp only [hemp, Bool.false_eq_true, if_false] at hle ⊢
      rw [if_neg]
      push_neg
      intro _
      simpa using hle

/-- Witness for C6: the order-invariance and keep-all components at
concrete inputs. -/
theorem series_cap_behaviour_witness :
    apply_series_cap List.length [[(("a".data : Str), ("x".data : Str))]] 1 strHash
      = apply_series_cap List.length [[(("a".data : Str), ("x".data : Str))]] 1 strHash ∧
    generate_label_space (fun _ _ => []) (fun _ => 0)
        ⟨[("a".data, ⟨some ["x".data], none, none⟩)], some 5, strFirstN⟩ []
      = generate_label_space (fun _ _ => []) (fun _ => 0)
        ⟨[("a".data, ⟨some ["x".data], none, none⟩)], none, strFirstN⟩ [] :=
  ⟨series_cap_behaviour.2.2.2.1 List.length _ _ 1 (List.Perm.refl _) (by decide),
    series_cap_behaviour.2.2.2.2 (fun _ _ => []) (fun _ => 0) _ [] 5 strFirstN
      (by decide)⟩

/-- One unfolding of the per-combination body: the drawn increment is
`rawIncrement` at the current draw count, and the draw count advances
by `drawStep` — uniformly in the algorithm branch taken. -/
theorem counterGenTickGo_cons (stream : Nat → Nat → Nat → Val) (seed : Nat)
    (algorithm : Str) (baseRate : Option Val)
    (labels : List (Str × Str)) (rest : List (List (Str × Str)))
    (st : CounterGenState) (t : Nat) :
    counterGenTickGo stream seed algorithm baseRate (labels :: rest) st t =
      (let key := sortedLabelStr labels
       let inc := max 0 (rawIncrement stream seed algorithm baseRate st.rngCount t)
       let newV := st.series key + inc
       let st' : CounterGenState :=
         ⟨st.rngCount + drawStep algorithm, fun k => if k = key then newV else st.series k⟩
       let restRun := counterGenTickGo stream seed algorithm baseRate rest st' t
       (newV :: restRun.1, restRun.2)) := by
  by_cases h1 : algorithm = strPoisson
  · subst h1
    have h2 : strPoisson ≠ strConstant := by decide
    simp [counterGenTickGo, rawIncrement, drawStep, h2]
  · by_cases h2 : algorithm = strConstant
    · subst h2
      simp [counterGenTickGo, rawIncrement, drawStep, h1]
    · simp [counterGenTickGo, rawIncrement, drawStep, h1, h2]

/-- Behaviour of one generator tick over the combination list: the
output length, the final draw count, the untouched keys, and — when
the label keys are pairwise distinct — the value emitted and the state
stored for the `j`-th combination, whose draw has index
`st.rngCount + j * drawStep`. -/
theorem counterGenTickGo_spec (stream : Nat → Nat → Nat → Val) (seed : Nat)
    (algorithm : Str) (baseRate : Option Val) (t : Nat) :
    ∀ (combos : List (List (Str × Str))) (st : CounterGenState),
    (counterGenTickGo stream seed algorithm baseRate combos st t).1.length
        = combos.length ∧
    (counterGenTickGo stream seed algorithm baseRate combos st t).2.rngCount
        = st.rngCount + combos.length * drawStep algorithm ∧
    (∀ k, k ∉ combos.map sortedLabelStr →
      (counterGenTickGo stream seed algorithm baseRate combos st t).2.series k
        = st.series k) ∧
    ((combos.map sortedLabelStr).Nodup →
      ∀ j, j < combos.length →
        (counterGenTickGo stream seed algorithm baseRate combos st t).1.getD j 0
          = st.series (sortedLabelStr (combos.getD j []))
            + max 0 (rawIncrement stream seed algorithm baseRate
                (st.rngCount + j * drawStep algorithm) t) ∧
        (counterGenTickGo stream seed algorithm baseRate combos st t).2.series
            (sortedLabelStr (combos.getD j []))
          = st.series (sortedLabelStr (combos.getD j []))
            + max 0 (rawIncrement stream seed algorithm baseRate
                (st.rngCount + j * drawStep algorithm) t))
  | [], st => by
    refine ⟨rfl, by simp [counterGenTickGo], fun k _ => rfl, ?_⟩
    intro _ j hj
    exact absurd hj (Nat.not_lt_zero j)
  | labels :: rest, st => by
    rw [counterGenTickGo_cons]
    simp only []
    set key := sortedLabelStr labels with hkey
    set inc := max 0 (rawIncrement stream seed algorithm baseRate st.rngCount t) with hinc
    set newV := st.series key + inc with hnewV
    set st' : CounterGenState :=
      ⟨st.rngCount + drawStep algorithm, fun k => if k = key then newV else st.series k⟩
      with hst'
    have ih := counterGenTickGo_spec stream seed algorithm baseRate t rest st'
    obtain ⟨ihLen, ihRng, ihOut, ihVal⟩ := ih
    refine ⟨?_, ?_, ?_, ?_⟩
    · simpa using ihLen
    · rw [ihRng, hst']
      simp [Nat.succ_mul]
      omega
    · intro k hk
      have hk1 : k ≠ key := by
        intro h
        exact hk (h ▸ List.mem_cons_self _ _)
      have hk2 : k ∉ rest.map sortedLabelStr := fun h =>
        hk (List.mem_cons_of_mem _ h)
      rw [ihOut k hk2, hst']
      simp [hk1]
    · intro hnd j hj
      have hkeyNotMem : key ∉ rest.map sortedLabelStr :=
        (List.nodup_cons.mp hnd).1
      have hndRest : (rest.map sortedLabelStr).Nodup :=
        (List.nodup_cons.mp hnd).2
      cases j with
      | zero =>
        constructor
        · simp [hnewV, hinc]
        · have hstEq := ihOut key hkeyNotMem
          simp only [List.getD_cons_zero]
          rw [hstEq, hst']
          simp [hnewV, hinc]
      | succ j =>
        have hj' : j < rest.length := by simpa using hj
        have hmem : sortedLabelStr (rest.getD j []) ∈ rest.map sortedLabelStr := by
          have : rest.getD j [] ∈ rest := by
            rw [List.getD_eq_getElem rest [] hj']
            exact List.getElem_mem hj'
          exact List.mem_map_of_mem _ this
        have hne : sortedLabelStr (rest.getD j []) ≠ key := by
          intro h
          exact hkeyNotMem (h ▸ hmem)
        have hval := ihVal hndRest j hj'
        have hseriesEq : st'.series (sortedLabelStr (rest.getD j []))
            = st.series (sortedLabelStr (rest.getD j [])) := by
          show (if sortedLabelStr (rest.getD j []) = key then newV
            else st.series (sortedLabelStr (rest.getD j [])))
            = st.series (sortedLabelStr (rest.getD j []))
          exact if_neg hne
        have hcount : st'.rngCount + j * drawStep algorithm
            = st.rngCount + (j + 1) * drawStep algorithm := by
          show st.rngCount + drawStep algorithm + j * drawStep algorithm
            = st.rngCount + (j + 1) * drawStep algorithm
          rw [Nat.succ_mul]
          omega
        constructor
        · simp only [List.getD_cons_succ]
          rw [hval.1, hseriesEq, hcount]
        · simp only [List.getD_cons_succ]
          rw [hval.2, hseriesEq, hcount]

/-- Peeling the first summand of a shifted sum. -/
theorem sum_shift (f g : Nat → Val) (c : Val) (n : Nat)
    (h0 : f 0 = c) (hs : ∀ k, f (k + 1) = g k) :
    ∑ i' ∈ Finset.range (n + 1), f i' = (∑ i' ∈ Finset.range n, g i') + c := by
  rw [Finset.sum_range_succ' f n, h0]
  congr 1
  exact Finset.sum_congr rfl fun k _ => hs k

/-- Behaviour of the generator run: with pairwise-distinct label keys,
the value emitted at tick `i` for combination `j` is the start state's
cumulative value plus the sum of the clamped increments whose draw
indices follow the fixed per-tick, per-series order. -/
theorem counterGenRun_spec (stream : Nat → Nat → Nat → Val) (seed : Nat)
    (algorithm : Str) (baseRate : Option Val)
    (combos : List (List (Str × Str)))
    (hnd : (combos.map sortedLabelStr).Nodup) :
    ∀ (ts : List Nat) (st : CounterGenState) (i : Nat), i < ts.length →
      ∀ j, j < combos.length →
      ((counterGenRun stream seed algorithm baseRate combos st ts).getD i []).getD j 0
        = st.series (sortedLabelStr (combos.getD j []))
          + ∑ i' ∈ Finset.range (i + 1),
              max 0 (rawIncrement stream seed algorithm baseRate
                (st.rngCount + (i' * combos.length + j) * drawStep algorithm)
                (ts.getD i' 0))
  | [], _, i, hi => absurd hi (by simp)
  | t :: ts, st, i, hi => by
    intro j hj
    obtain ⟨tickLen, tickRng, tickOut, tickVal⟩ :=
      counterGenTickGo_spec stream seed algorithm baseRate t combos st
    cases i with
    | zero =>
      simp only [counterGenRun, counterGenTick, List.getD_cons_zero]
      rw [(tickVal hnd j hj).1]
      congr 1
      rw [Finset.sum_range_one]
      norm_num
    | succ i =>
      have hi' : i < ts.length := by simpa using hi
      simp only [counterGenRun, counterGenTick, List.getD_cons_succ]
      set st₂ := (counterGenTickGo stream seed algorithm baseRate combos st t).2 with hst₂
      have ih := counterGenRun_spec stream seed algorithm baseRate combos hnd ts st₂ i hi' j hj
      rw [ih]
      rw [(tickVal hnd j hj).2, tickRng]
      have hsum := sum_shift
        (fun i' => max 0 (rawIncrement stream seed algorithm baseRate
          (st.rngCount + (i' * combos.length + j) * drawStep algorithm)
          ((t :: ts).getD i' 0)))
        (fun k => max 0 (rawIncrement stream seed algorithm baseRate
          (st.rngCount + combos.length * drawStep algorithm
            + (k * combos.length + j) * drawStep algorithm)
          (ts.getD k 0)))
        (max 0 (rawIncrement stream seed algorithm baseRate
          (st.rngCount + j * drawStep algorithm) t))
        (i + 1)
        (by norm_num)
        (by
          intro k
          simp only [List.getD_cons_succ]
          have harith : st.rngCount + ((k + 1) * combos.length + j) * drawStep algorithm
              = st.rngCount + combos.length * drawStep algorithm
                + (k * combos.length + j) * drawStep algorithm := by
            ring
          rw [harith])
      rw [hsum]
      ring

/-- C5.  Determinism: two independently constructed counter generator
instances with the same configuration (same algorithm, base rate,
metric seed / global seed, label combinations) fed the identical finite
tick-timestamp sequence produce identical per-tick value sequences;
moreover the value at tick `i`, series `j` is the closed-form
`pureCounterValue` — a pure function of the selected seed and the draw
count `i * K + j`, reflecting that draws occur in a fixed per-tick,
per-series order and the RNG stream state is a pure function of seed
and draw count. -/
theorem generator_determinism :
    (∀ (stream : Nat → Nat → Nat → Val) (cfgSeed : Option Nat) (globalSeed : Nat)
       (algorithm : Str) (baseRate : Option Val)
       (combos : List (List (Str × Str))) (ts : List Nat),
      counterGenRun stream (selectSeed cfgSeed globalSeed) algorithm baseRate combos
          initCounterGenState ts
        = counterGenRun stream (selectSeed cfgSeed globalSeed) algorithm baseRate combos
          initCounterGenState ts) ∧
    (∀ (stream : Nat → Nat → Nat → Val) (cfgSeed : Option Nat) (globalSeed : Nat)
       (algorithm : Str) (baseRate : Option Val)
       (combos : List (List (Str × Str))) (ts : List Nat),
      (combos.map sortedLabelStr).Nodup →
      ∀ i, i < ts.length → ∀ j, j < combos.length →
        ((counterGenRun stream (selectSeed cfgSeed globalSeed) algorithm baseRate combos
            initCounterGenState ts).getD i []).getD j 0
          = pureCounterValue stream (selectSeed cfgSeed globalSeed) algorithm baseRate
              combos.length ts i j) := by
  refine ⟨fun _ _ _ _ _ _ _ => rfl, ?_⟩
  intro stream cfgSeed globalSeed algorithm baseRate combos ts hnd i hi j hj
  have h := counterGenRun_spec stream (selectSeed cfgSeed globalSeed) algorithm baseRate
    combos hnd ts initCounterGenState i hi j hj
  rw [h]
  simp [initCounterGenState, pureCounterValue]

/-- Witness for C5: the closed form evaluated for one series over one
tick with a constant stream. -/
theorem generator_determinism_witness :
    ((counterGenRun (fun _ _ _ => 1) (selectSeed none 0) strPoisson none
        [[(("a".data : Str), ("x".data : Str))]] initCounterGenState [0]).getD 0 []).getD 0 0
      = pureCounterValue (fun _ _ _ => 1) (selectSeed none 0) strPoisson none
          1 [0] 0 0 := by
  have h := generator_determinism.2 (fun _ _ _ => 1) none 0 strPoisson none
    [[(("a".data : Str), ("x".data : Str))]] [0] (by decide)
    0 (by decide) 0 (by decide)
  simpa using h

end Mockingbird
